import Mathlib

/-!
A verification development for the cypher-interactive state-synchronization
core: the shared accounts cache with change notification, the poll-and-hydrate
service, the typed providers (cypher account, open orders, order book) and the
slab order-book decoder.  Rust sources are embedded shallowly: machine maps
become association lists, broadcast channels become an explicit pending-key
list plus a subscriber count, fallible paths return `Except`, and paths that
panic in Rust (`unwrap`, `assert_eq!`, out-of-bounds slicing) return `none`.
-/

namespace CypherInteractive

/-- A ledger address (`solana_sdk::pubkey::Pubkey`, 32 bytes), modelled as a
natural-number key; `Pubkey::default()` is the all-zero key, modelled as `0`. -/

abbrev Pubkey := Nat

/-- Model of `Pubkey::default()`. -/

def pubkeyDefault : Pubkey := 0

/-- Model of `solana_sdk::account::Account`, reduced to the `data` byte vector the core
reads; bytes are naturals. -/

structure Account where
  data : List Nat
  deriving DecidableEq, Repr

/-- Model of `AccountState` from `accounts_cache.rs`: raw account plus observed slot. -/

structure AccountState where
  account : Account
  slot : Nat
  deriving DecidableEq, Repr

/-- Model of `AccountsCacheError` from `accounts_cache.rs`. -/

inductive AccountsCacheError where
  | ChannelSendError
  deriving DecidableEq, Repr

/-- Model of `AccountsCache` from `accounts_cache.rs`.  The `DashMap` is an association
list, the `tokio` broadcast sender is modelled by the number of live
subscribers together with the list of pending (sent, not yet consumed)
notification keys, oldest first. -/

structure AccountsCache where
  map : List (Pubkey × AccountState)
  subscribers : Nat
  channel : List Pubkey
  deriving DecidableEq, Repr

/-- Map replacement used by `DashMap::insert`: the new binding shadows and
removes any previous binding for the key. -/

def mapInsert (m : List (Pubkey × AccountState)) (key : Pubkey) (v : AccountState) :
    List (Pubkey × AccountState) :=
  (key, v) :: m.filter (fun p => p.1 ≠ key)

/-- Model of `AccountsCache::get`: non-blocking point read, `None` if never populated. -/

def AccountsCache.get (c : AccountsCache) (key : Pubkey) : Option AccountState :=
  (c.map.find? (fun p => p.1 = key)).map Prod.snd

/-- Model of `AccountsCache::insert`: stores the record in the map first, then attempts
to publish the key on the broadcast channel.  `tokio` broadcast `send` fails
exactly when there are zero receivers; the record stays stored either way. -/

def AccountsCache.insert (c : AccountsCache) (key : Pubkey) (v : AccountState) :
    AccountsCache × Except AccountsCacheError Unit :=
  let stored : AccountsCache := { c with map := mapInsert c.map key v }
  if stored.subscribers = 0 then
    (stored, Except.error AccountsCacheError.ChannelSendError)
  else
    ({ stored with channel := stored.channel ++ [key] }, Except.ok ())

/-- The cache as freshly constructed by `AccountsCache::new`: empty map, no
pending notifications, `s` broadcast subscribers. -/

def emptyCache (s : Nat) : AccountsCache :=
  { map := [], subscribers := s, channel := [] }

/-- A sequence of subsequent inserts applied to a cache, in order. -/

def applyInserts (ops : List (Pubkey × AccountState)) (c : AccountsCache) : AccountsCache :=
  ops.foldl (fun acc op => (acc.insert op.1 op.2).1) c

/-- The value of the last insert to `a` inside `ops`, if any. -/

def lastWriteTo (a : Pubkey) : List (Pubkey × AccountState) → Option AccountState
  | [] => none
  | op :: ops =>
    match lastWriteTo a ops with
    | some v => some v
    | none => if op.1 = a then some op.2 else none

/-- One transition of the composed cache-plus-providers system: a producer
insert (which stores the record and, when subscribers exist, appends the key
to the pending notifications), a subscriber consuming (or the lagging channel
dropping) the oldest notification, or a new subscription.  `AccountsCache`
has no removal operation, so there is no delete transition. -/

inductive CacheStep : AccountsCache → AccountsCache → Prop where
  | insert (c : AccountsCache) (k : Pubkey) (v : AccountState) :
      CacheStep c ((c.insert k v).1)
  | consume (c : AccountsCache) :
      CacheStep c { c with channel := c.channel.tail }
  | subscribe (c : AccountsCache) :
      CacheStep c { c with subscribers := c.subscribers + 1 }

/-- States reachable from a freshly constructed cache. -/

def CacheReachable (c : AccountsCache) : Prop :=
  Relation.ReflTransGen CacheStep (emptyCache 0) c

/-- Model of `get_zero_copy_account` from `utils/accounts.rs`.  The Rust function
panics (`array_ref!` bounds, `assert_eq!` on the 8-byte discriminator,
slice indexing, checked `from_bytes`) whenever the layout assumptions are
violated; every panic is modelled as `none`.  The decoded typed value is
modelled as the payload byte slice `data[8 .. size + 8]` itself, since
`from_bytes` merely reinterprets those bytes. -/

def getZeroCopyAccount (disc : List Nat) (size : Nat) (data : List Nat) : Option (List Nat) :=
  if 8 ≤ data.length ∧ data.take 8 = disc ∧ size + 8 ≤ data.length then
    some ((data.drop 8).take size)
  else none

/-- Model of `CypherAccountProvider::process_updates`.  Returns `none` for a panic
(`cache.get(&key).unwrap()` on a missing entry, or a decode panic), otherwise
the list of values delivered on the fan-out channel together with the returned
`Result` (`Except.error ()` models `Err(CypherInteractiveError::ChannelSend)`,
which the send produces exactly when there are zero subscribers). -/

def capProcessUpdates (disc : List Nat) (size : Nat) (pubkey : Pubkey)
    (cache : AccountsCache) (subs : Nat) (key : Pubkey) :
    Option (List (List Nat) × Except Unit Unit) :=
  if key = pubkey then
    match cache.get key with
    | none => none
    | some st =>
      match getZeroCopyAccount disc size st.account.data with
      | none => none
      | some user =>
        if subs = 0 then some ([], Except.error ())
        else some ([user], Except.ok ())
  else some ([], Except.ok ())

/-- Model of `OpenOrdersProvider::process_updates`: iterates the watched open-orders
keys, and on the first match reads the cache (`unwrap` panic modelled as
`none`), parses the account (`parse_dex_account` reinterprets the bytes, so
the typed value is modelled by the raw bytes) and publishes it tagged with the
address it came from. -/

def oopProcessUpdates (cache : AccountsCache) (subs : Nat) (key : Pubkey) :
    List Pubkey → Option (List (List Nat × Pubkey) × Except Unit Unit)
  | [] => some ([], Except.ok ())
  | pk :: rest =>
    if key = pk then
      match cache.get key with
      | none => none
      | some st =>
        if subs = 0 then some ([], Except.error ())
        else some ([(st.account.data, key)], Except.ok ())
    else oopProcessUpdates cache subs key rest

/-- Modelled from the spec: `OrderBookOrder` lives in the absent `serum_slab.rs`; the spec data model gives
`{ order_id, client_order_id, price, quantity }`. -/

structure OrderBookOrder where
  orderId : Nat
  clientOrderId : Nat
  price : Nat
  quantity : Nat
  deriving DecidableEq, Repr

/-- Model of `OrderBookContext` from `orderbook_provider.rs`. -/

structure OrderBookContext where
  market : Pubkey
  bids : Pubkey
  asks : Pubkey
  coinLotSize : Nat
  pcLotSize : Nat
  deriving DecidableEq, Repr

/-- Model of `OrderBook` from `orderbook_provider.rs`; the two `RwLock`-guarded side
vectors are plain lists here. -/

structure OrderBook where
  market : Pubkey
  bids : List OrderBookOrder
  asks : List OrderBookOrder
  deriving DecidableEq, Repr

/-- Model of `OrderBook::new` from `orderbook_provider.rs`: the `market` argument is
ignored by the source and the field is set to `Pubkey::default()`. -/

def OrderBook.new (market : Pubkey) : OrderBook :=
  { market := pubkeyDefault, bids := [], asks := [] }

/-- The filter applied in `Handler::start` (`market_handler.rs` lines
111-117): a book received from the order-book provider is stored iff its
`market` field equals the handler's dex market pubkey. -/

def handlerAcceptsBook (dexMarketPk : Pubkey) (ob : OrderBook) : Bool :=
  ob.market == dexMarketPk

/-- Modelled from the spec: a slab tree node; `serum_slab.rs` is absent from
`src/`; the spec data model gives the tagged union
{Uninitialized, Inner{left, right, branching data}, Leaf{price, order_id,
quantity, client_order_id}} stored as a flat array. -/

inductive SlabNode where
  | uninitialized : SlabNode
  | inner (leftChild rightChild : Nat) (pfx pfxLen : Nat) : SlabNode
  | leaf (price orderId quantity clientOrderId : Nat) : SlabNode
  deriving DecidableEq, Repr

/-- Modelled from the spec: a parsed slab page; `serum_slab.rs` is absent
from `src/`; the page is a flat array of fixed-size node records with a
distinguished root. -/

structure Slab where
  root : Nat
  nodes : List SlabNode
  deriving DecidableEq, Repr

/-- Modelled from the spec: the traversal core of `Slab::get_depth` from the
absent `serum_slab.rs`.  Walks the critbit tree from a node index, descending
first into the child on the ascending (asks) or descending (bids) side,
collecting at most `rem` leaves; each leaf yields one price level with the
raw lot counts scaled by the two lot sizes.  `fuel` bounds the walk so that a
malformed page (cyclic indices) terminates with the leaves found so far.
Returns the remaining depth budget and the collected levels in order. -/

def slabCollect (s : Slab) (asc : Bool) (pcLotSize coinLotSize : Nat) :
    Nat → Nat → Nat → Nat × List OrderBookOrder
  | 0, _, rem => (rem, [])
  | fuel + 1, idx, rem =>
    if rem = 0 then (0, [])
    else
      match s.nodes.get? idx with
      | none => (rem, [])
      | some SlabNode.uninitialized => (rem, [])
      | some (SlabNode.leaf price orderId quantity clientOrderId) =>
        (rem - 1, [⟨orderId, clientOrderId, price * pcLotSize, quantity * coinLotSize⟩])
      | some (SlabNode.inner l r _ _) =>
        let fstChild := if asc then l else r
        let sndChild := if asc then r else l
        let res1 := slabCollect s asc pcLotSize coinLotSize fuel fstChild rem
        let res2 := slabCollect s asc pcLotSize coinLotSize fuel sndChild res1.1
        (res2.1, res1.2 ++ res2.2)

/-- Modelled from the spec: `Slab::get_depth(depth, pc_lot_size,
coin_lot_size, asc)` from the absent `serum_slab.rs` — the depth-capped,
price-ordered decode of one side of the book. -/

def Slab.getDepth (s : Slab) (depth pcLotSize coinLotSize : Nat) (asc : Bool) :
    List OrderBookOrder :=
  (slabCollect s asc pcLotSize coinLotSize (s.nodes.length + 1) s.root depth).2

/-- The byte slicing `array_refs![&data, 5; ..; 7]` followed by `[8..]` that
`OrderBookProvider::process_updates` applies to cached side bytes before
`Slab::new`; each out-of-bounds panic is modelled as `none`. -/

def slabPageBytes (data : List Nat) : Option (List Nat) :=
  if 12 ≤ data.length then
    let mid := (data.drop 5).take (data.length - 12)
    if 8 ≤ mid.length then some (mid.drop 8) else none
  else none

/-- Replace the first book whose `market` matches (the in-place write through
the found `Arc` reference in `process_updates`). -/

def replaceBook (market : Pubkey) (ob' : OrderBook) : List OrderBook → List OrderBook
  | [] => []
  | b :: rest =>
    if b.market = market then ob' :: rest else b :: replaceBook market ob' rest

/-- Model of `OrderBookProvider::process_updates`, one iteration per configured
`OrderBookContext`.  State threads the `books` vector and the `updated` flag
(which the source never resets between iterations).  `parse` stands for
`Slab::new` on the sliced bytes (the slab layout lives in the absent
`serum_slab.rs`).  Result: `none` for a panic (`unwrap` on a cache miss or a
slicing panic), otherwise the final books, the values delivered on the
fan-out channel, and the returned `Result` (`Except.error ()` models the
early `Err(ChannelSend)` return when a send finds zero subscribers). -/

def obpProcessUpdatesAux (parse : List Nat → Slab) (cache : AccountsCache)
    (subs : Nat) (key : Pubkey) :
    List OrderBookContext → List OrderBook → Bool →
    Option (List OrderBook × List OrderBook × Except Unit Unit)
  | [], books, _ => some (books, [], Except.ok ())
  | ctx :: rest, books, updated =>
    match books.find? (fun ob => ob.market = ctx.market) with
    | none => obpProcessUpdatesAux parse cache subs key rest books updated
    | some ob =>
      let step : Option (OrderBook × Bool) :=
        if key = ctx.bids then
          match cache.get key with
          | none => none
          | some st =>
            match slabPageBytes st.account.data with
            | none => none
            | some bytes =>
              some ({ ob with
                bids := (parse bytes).getDepth 25 ctx.pcLotSize ctx.coinLotSize false }, true)
        else if key = ctx.asks then
          match cache.get key with
          | none => none
          | some st =>
            match slabPageBytes st.account.data with
            | none => none
            | some bytes =>
              some ({ ob with
                asks := (parse bytes).getDepth 25 ctx.pcLotSize ctx.coinLotSize true }, true)
        else some (ob, updated)
      match step with
      | none => none
      | some (ob', upd) =>
        let books' := replaceBook ctx.market ob' books
        if upd then
          if subs = 0 then some (books', [], Except.error ())
          else
            match obpProcessUpdatesAux parse cache subs key rest books' true with
            | none => none
            | some (bks, sends, res) => some (bks, ob' :: sends, res)
        else obpProcessUpdatesAux parse cache subs key rest books' upd

/-- Model of the `OrderBookProvider::process_updates` entry point: `updated` starts
`false`; `books` is the provider's `books` vector, which
`OrderBookProvider::new` initializes to `Vec::new()` and nothing ever
populates. -/

def obpProcessUpdates (parse : List Nat → Slab) (cache : AccountsCache)
    (subs : Nat) (key : Pubkey) (ctxs : List OrderBookContext)
    (books : List OrderBook) :
    Option (List OrderBook × List OrderBook × Except Unit Unit) :=
  obpProcessUpdatesAux parse cache subs key ctxs books false

/-- The value of a successful `get_multiple_accounts_with_commitment` call:
the response's context slot plus one optional account per requested key. -/

structure RpcResponse where
  slot : Nat
  value : List (Option Account)
  deriving DecidableEq, Repr

/-- The pop-from-the-end loop of `AccountInfoService::update_infos`: the last
element of `infos` is popped first and paired with the key at the matching
index, so the pairs arrive in reverse order (already reversed in this list).
`None` entries are skipped; `Some` entries are inserted with the response's
context slot, the insert's send result being discarded (`_ =`). -/

def processInfosRev (slot : Nat) :
    List (Pubkey × Option Account) → AccountsCache → AccountsCache
  | [], c => c
  | (k, oa) :: rest, c =>
    let c' :=
      match oa with
      | none => c
      | some ai => (c.insert k ⟨ai, slot⟩).1
    processInfosRev slot rest c'

/-- The body of `update_infos` acting on the sliced batch of keys: fetch the
batch, and on success pair `account_keys[i]` with `infos[i]` and store the
returned accounts; an RPC failure is returned to the caller untouched. -/

def fetchAndStore (fetch : List Pubkey → Except Unit RpcResponse)
    (ks : List Pubkey) (c : AccountsCache) : Except Unit AccountsCache :=
  match fetch ks with
  | Except.error e => Except.error e
  | Except.ok res => Except.ok (processInfosRev res.slot ((ks.zip res.value).reverse) c)

/-- Model of `AccountInfoService::update_infos(from, to)`: operates on
`keys[from..to]`.  Both call sites pass `to = min(keys.len(), from + 100)`,
so the Rust slice never panics and equals this `drop`/`take`. -/

def updateInfos (fetch : List Pubkey → Except Unit RpcResponse)
    (keys : List Pubkey) (lo hi : Nat) (c : AccountsCache) :
    Except Unit AccountsCache :=
  fetchAndStore fetch ((keys.drop lo).take (hi - lo)) c

/-- The index sequence `(0..n).step_by(100)` driving both fetch loops: all
multiples of 100 below `n`, i.e. `ceil(n/100)` of them. -/

def batchStarts (n : Nat) : List Nat :=
  (List.range ((n + 99) / 100)).map (fun j => j * 100)

/-- The contiguous batches the loops fetch: `keys[i..min(n, i+100)]` for each
start index `i`. -/

def chunkSlices (keys : List Pubkey) : List (List Pubkey) :=
  (batchStarts keys.length).map
    (fun i => (keys.drop i).take (min keys.length (i + 100) - i))

/-- The hydration pass of `AccountInfoService::start_service`: every batch
result is `.unwrap()`ed, so the first RPC failure panics the task (modelled
by the `Except` error propagating out of the fold). -/

def startServiceHydrate (fetch : List Pubkey → Except Unit RpcResponse)
    (keys : List Pubkey) (c : AccountsCache) : Except Unit AccountsCache :=
  (batchStarts keys.length).foldlM
    (fun acc i => updateInfos fetch keys i (min keys.length (i + 100)) acc) c

/-- One full cycle of `update_infos_replay` (the loop body minus the 500 ms
sleep): every batch is attempted, each result is discarded (`_ =`), so a
failed batch leaves the cache untouched and the cycle continues. -/

def replayCycle (fetch : List Pubkey → Except Unit RpcResponse)
    (keys : List Pubkey) (c : AccountsCache) : AccountsCache :=
  (batchStarts keys.length).foldl
    (fun acc i =>
      match updateInfos fetch keys i (min keys.length (i + 100)) acc with
      | Except.ok x => x
      | Except.error _ => acc) c

/-- Iterates `n` consecutive cycles of the replay loop. -/

def replayCycles (fetch : List Pubkey → Except Unit RpcResponse)
    (keys : List Pubkey) : Nat → AccountsCache → AccountsCache
  | 0, c => c
  | n + 1, c => replayCycle fetch keys (replayCycles fetch keys n c)

/-- An RPC oracle that always succeeds: per-key remote state `remote` and a
context slot `slotF` per request. -/

def oracleFetch (remote : Pubkey → Option Account) (slotF : List Pubkey → Nat) :
    List Pubkey → Except Unit RpcResponse :=
  fun ks => Except.ok ⟨slotF ks, ks.map remote⟩

/-- An RPC oracle that fails exactly on the batches selected by `fail`. -/

def flakyFetch (fail : List Pubkey → Bool) (remote : Pubkey → Option Account)
    (slotF : List Pubkey → Nat) : List Pubkey → Except Unit RpcResponse :=
  fun ks => if fail ks then Except.error () else Except.ok ⟨slotF ks, ks.map remote⟩

theorem AccountsCache.get_insert_self (c : AccountsCache) (k : Pubkey) (v : AccountState) :
    ((c.insert k v).1).get k = some v := by
  unfold AccountsCache.insert AccountsCache.get mapInsert
  by_cases h : c.subscribers = 0 <;> simp [h]

theorem AccountsCache.get_insert_ne (c : AccountsCache) (k a : Pubkey) (v : AccountState)
    (h : a ≠ k) : ((c.insert k v).1).get a = c.get a := by
  have hke : ¬ (k = a) := fun hc => h hc.symm
  have hx : ∀ x : Pubkey × AccountState,
      (!decide (x.1 = k) && decide (x.1 = a)) = decide (x.1 = a) := by
    intro x
    by_cases hxa : x.1 = a
    · have hxk : ¬ (x.1 = k) := fun hc => h (by rw [← hxa, hc])
      simp [hxa, hxk, h]
    · simp [hxa]
  unfold AccountsCache.insert AccountsCache.get mapInsert
  by_cases hs : c.subscribers = 0 <;>
    simp [hs, List.find?, hke, List.find?_filter, hx]

theorem AccountsCache.get_empty (s : Nat) (a : Pubkey) : (emptyCache s).get a = none := rfl

theorem applyInserts_get (a : Pubkey) :
    ∀ (ops : List (Pubkey × AccountState)) (c : AccountsCache),
      (applyInserts ops c).get a =
        match lastWriteTo a ops with
        | some v => some v
        | none => c.get a := by
  intro ops
  induction ops with
  | nil => intro c; rfl
  | cons op rest ih =>
    intro c
    show (applyInserts rest ((c.insert op.1 op.2).1)).get a = _
    rw [ih]
    by_cases hk : op.1 = a
    · subst hk
      rw [AccountsCache.get_insert_self]
      cases h : lastWriteTo op.1 rest <;> simp [lastWriteTo, h]
    · rw [AccountsCache.get_insert_ne c op.1 a op.2 (fun hc => hk hc.symm)]
      cases h : lastWriteTo a rest <;> simp [lastWriteTo, h, hk]

theorem lastWriteTo_eq_none (a : Pubkey) (ops : List (Pubkey × AccountState))
    (h : ∀ op ∈ ops, op.1 ≠ a) : lastWriteTo a ops = none := by
  induction ops with
  | nil => rfl
  | cons op rest ih =>
    have h1 : op.1 ≠ a := h op (List.mem_cons_self op rest)
    have h2 : lastWriteTo a rest = none := ih (fun p hp => h p (List.mem_cons_of_mem op hp))
    simp [lastWriteTo, h2, h1]

theorem cacheStep_channel_cached (c c' : AccountsCache) (hstep : CacheStep c c')
    (hinv : ∀ k ∈ c.channel, (c.get k).isSome = true) :
    ∀ k ∈ c'.channel, (c'.get k).isSome = true := by
  cases hstep with
  | insert k v =>
    intro a ha
    by_cases hak : a = k
    · subst hak
      rw [AccountsCache.get_insert_self]
      rfl
    · rw [AccountsCache.get_insert_ne _ _ _ _ hak]
      apply hinv
      revert ha
      show a ∈ (AccountsCache.insert c k v).1.channel → a ∈ c.channel
      unfold AccountsCache.insert
      by_cases hs : c.subscribers = 0 <;> simp [hs, hak]
  | consume =>
    intro a ha
    have hmem : a ∈ c.channel := by
      cases hch : c.channel with
      | nil => rw [hch] at ha; cases ha
      | cons x xs => rw [hch] at ha; exact List.mem_cons_of_mem x ha
    exact hinv a hmem
  | subscribe =>
    intro a ha
    exact hinv a ha

theorem cacheReachable_channel_cached (c : AccountsCache) (h : CacheReachable c) :
    ∀ k ∈ c.channel, (c.get k).isSome = true := by
  induction h with
  | refl => intro k hk; cases hk
  | tail _ hstep ih => exact cacheStep_channel_cached _ _ hstep ih

/-- C4: after `insert a r`, every `get a` that precedes the next insert to
`a` (any sequence of subsequent inserts avoiding `a`) returns exactly `r`;
and an address never inserted since the cache was constructed reads as
`none`. -/
theorem c4_cache_read_your_writes
    (c : AccountsCache) (a : Pubkey) (r : AccountState)
    (ops : List (Pubkey × AccountState)) (hops : ∀ op ∈ ops, op.1 ≠ a)
    (s : Nat) (ks : List (Pubkey × AccountState)) (hks : ∀ op ∈ ks, op.1 ≠ a) :
    (applyInserts ops ((c.insert a r).1)).get a = some r ∧
    (applyInserts ks (emptyCache s)).get a = none := by
  constructor
  · rw [applyInserts_get a ops ((c.insert a r).1), lastWriteTo_eq_none a ops hops]
    exact AccountsCache.get_insert_self c a r
  · rw [applyInserts_get a ks (emptyCache s), lastWriteTo_eq_none a ks hks]
    exact AccountsCache.get_empty s a

/-- C4 witness at concrete inserts. -/
theorem c4_cache_read_your_writes_witness :
    (applyInserts [(6, ⟨⟨[3]⟩, 8⟩)]
      (((emptyCache 1).insert 5 ⟨⟨[1, 2]⟩, 7⟩).1)).get 5 = some ⟨⟨[1, 2]⟩, 7⟩ ∧
    (applyInserts [(6, ⟨⟨[3]⟩, 8⟩)] (emptyCache 0)).get 5 = none :=
  c4_cache_read_your_writes (emptyCache 1) 5 ⟨⟨[1, 2]⟩, 7⟩
    [(6, ⟨⟨[3]⟩, 8⟩)] (by decide) 0 [(6, ⟨⟨[3]⟩, 8⟩)] (by decide)

/-- C5: an insert stores the record in the map regardless of the outcome of
the notification send; with zero subscribers the send failure comes back as
the non-fatal `ChannelSendError` value while the record is stored anyway;
and any re-read of the key after the insert (plus any later inserts) sees
that write or a newer write to the same key, never an older one. -/
theorem c5_insert_stores_before_notify
    (c : AccountsCache) (a : Pubkey) (r : AccountState) :
    ((c.insert a r).1).get a = some r ∧
    (c.subscribers = 0 →
      (c.insert a r).2 = Except.error AccountsCacheError.ChannelSendError ∧
      ((c.insert a r).1).get a = some r) ∧
    (∀ ops : List (Pubkey × AccountState),
      (applyInserts ops ((c.insert a r).1)).get a =
        match lastWriteTo a ops with
        | some v => some v
        | none => some r) := by
  refine ⟨AccountsCache.get_insert_self c a r, ?_, ?_⟩
  · intro hs
    constructor
    · unfold AccountsCache.insert
      simp [hs]
    · exact AccountsCache.get_insert_self c a r
  · intro ops
    rw [applyInserts_get a ops ((c.insert a r).1)]
    cases h : lastWriteTo a ops with
    | none => simp [AccountsCache.get_insert_self c a r]
    | some v => simp

/-- C5 witness at a concrete zero-subscriber cache. -/
theorem c5_insert_stores_before_notify_witness :
    (((emptyCache 0).insert 1 ⟨⟨[4]⟩, 2⟩).1).get 1 = some ⟨⟨[4]⟩, 2⟩ ∧
    ((emptyCache 0).subscribers = 0 →
      ((emptyCache 0).insert 1 ⟨⟨[4]⟩, 2⟩).2 =
        Except.error AccountsCacheError.ChannelSendError ∧
      (((emptyCache 0).insert 1 ⟨⟨[4]⟩, 2⟩).1).get 1 = some ⟨⟨[4]⟩, 2⟩) ∧
    (∀ ops : List (Pubkey × AccountState),
      (applyInserts ops (((emptyCache 0).insert 1 ⟨⟨[4]⟩, 2⟩).1)).get 1 =
        match lastWriteTo 1 ops with
        | some v => some v
        | none => some ⟨⟨[4]⟩, 2⟩) :=
  c5_insert_stores_before_notify (emptyCache 0) 1 ⟨⟨[4]⟩, 2⟩

theorem replaceBook_find_self (m : Pubkey) :
    ∀ (books : List OrderBook) (ob : OrderBook),
      books.find? (fun b => b.market = m) = some ob →
      replaceBook m ob books = books := by
  intro books
  induction books with
  | nil => intro ob h; cases h
  | cons b rest ih =>
    intro ob h
    by_cases hb : b.market = m
    · simp [List.find?, hb] at h
      subst h
      simp [replaceBook, hb]
    · simp [List.find?, hb] at h
      simp [replaceBook, hb, ih ob h]

theorem obpAux_unwatched (parse : List Nat → Slab) (cache : AccountsCache)
    (subs : Nat) (key : Pubkey) :
    ∀ (ctxs : List OrderBookContext) (books : List OrderBook),
      (∀ ctx ∈ ctxs, key ≠ ctx.bids ∧ key ≠ ctx.asks) →
      obpProcessUpdatesAux parse cache subs key ctxs books false =
        some (books, [], Except.ok ()) := by
  intro ctxs
  induction ctxs with
  | nil => intro books _; rfl
  | cons ctx rest ih =>
    intro books h
    have hb := (h ctx (List.mem_cons_self ctx rest)).1
    have ha := (h ctx (List.mem_cons_self ctx rest)).2
    have hrest : ∀ c ∈ rest, key ≠ c.bids ∧ key ≠ c.asks :=
      fun c hc => h c (List.mem_cons_of_mem ctx hc)
    unfold obpProcessUpdatesAux
    cases hf : books.find? (fun ob => ob.market = ctx.market) with
    | none => simp [ih books hrest]
    | some ob =>
      simp [hb, ha, replaceBook_find_self ctx.market books ob hf, ih books hrest]

theorem slabCollect_budget (s : Slab) (asc : Bool) (pc cl : Nat) :
    ∀ fuel idx rem,
      (slabCollect s asc pc cl fuel idx rem).2.length +
        (slabCollect s asc pc cl fuel idx rem).1 = rem := by
  intro fuel
  induction fuel with
  | zero => intro idx rem; simp [slabCollect]
  | succ fuel ih =>
    intro idx rem
    unfold slabCollect
    by_cases hr : rem = 0
    · simp [hr]
    · cases hn : s.nodes.get? idx with
      | none => simp [hr, hn]
      | some node =>
        cases node with
        | uninitialized => simp [hr, hn]
        | leaf p o q c => simp [hr, hn]; omega
        | inner l r x y =>
          have h1 := ih (if asc then l else r) rem
          have h2 := ih (if asc then r else l)
            (slabCollect s asc pc cl fuel (if asc then l else r) rem).1
          simp [hr, hn]
          omega

/-- C8: every order-book decode issued by `process_updates` calls
`Slab::get_depth` with the fixed depth cap 25, and the decoded sequence of
price levels never exceeds that cap, however many leaves the page holds. -/
theorem c8_getDepth_capped (s : Slab) (pcLotSize coinLotSize : Nat) (asc : Bool) :
    (s.getDepth 25 pcLotSize coinLotSize asc).length ≤ 25 := by
  have h := slabCollect_budget s asc pcLotSize coinLotSize (s.nodes.length + 1) s.root 25
  unfold Slab.getDepth
  omega

/-- C9: the constructor `OrderBook::new(m)` ignores `m`: the returned book carries the
default (all-zero) market pubkey and empty sides, so the `Handler::start`
market filter accepts such a book only when the handler's dex market pubkey
is itself the default value. -/
theorem c9_orderbook_new_ignores_market (m dexMarketPk : Pubkey) :
    (OrderBook.new m).market = pubkeyDefault ∧
    (OrderBook.new m).bids = [] ∧
    (OrderBook.new m).asks = [] ∧
    (handlerAcceptsBook dexMarketPk (OrderBook.new m) = true ↔
      dexMarketPk = pubkeyDefault) := by
  refine ⟨rfl, rfl, rfl, ?_⟩
  unfold handlerAcceptsBook OrderBook.new
  simp only [beq_iff_eq]
  exact eq_comm

/-- C7: a provider watching address set S publishes nothing in response to a
notification for a key outside S — for the single-account provider, the
open-orders provider, and the order-book provider alike (delivered-value
lists all empty, no panic, `Ok` result). -/
theorem c7_unwatched_key_publishes_nothing
    (cache : AccountsCache) (subs : Nat) (key : Pubkey)
    (pubkey : Pubkey) (disc : List Nat) (size : Nat) (hcap : key ≠ pubkey)
    (pks : List Pubkey) (hoop : ∀ pk ∈ pks, key ≠ pk)
    (parse : List Nat → Slab) (ctxs : List OrderBookContext)
    (books : List OrderBook)
    (hobp : ∀ ctx ∈ ctxs, key ≠ ctx.bids ∧ key ≠ ctx.asks) :
    capProcessUpdates disc size pubkey cache subs key =
      some ([], Except.ok ()) ∧
    oopProcessUpdates cache subs key pks = some ([], Except.ok ()) ∧
    obpProcessUpdates parse cache subs key ctxs books =
      some (books, [], Except.ok ()) := by
  refine ⟨?_, ?_, obpAux_unwatched parse cache subs key ctxs books hobp⟩
  · unfold capProcessUpdates
    simp [hcap]
  · induction pks with
    | nil => rfl
    | cons pk rest ih =>
      have h1 : key ≠ pk := hoop pk (List.mem_cons_self pk rest)
      have h2 : ∀ q ∈ rest, key ≠ q := fun q hq => hoop q (List.mem_cons_of_mem pk hq)
      unfold oopProcessUpdates
      simp [h1, ih h2]

/-- C7 witness at a concrete unwatched key. -/
theorem c7_unwatched_key_publishes_nothing_witness :
    capProcessUpdates [1, 1] 2 5 (emptyCache 1) 1 9 = some ([], Except.ok ()) ∧
    oopProcessUpdates (emptyCache 1) 1 9 [4, 6] = some ([], Except.ok ()) ∧
    obpProcessUpdates (fun _ => ⟨0, []⟩) (emptyCache 1) 1 9
      [⟨2, 3, 4, 10, 10⟩] [⟨2, [], []⟩] =
      some ([⟨2, [], []⟩], [], Except.ok ()) :=
  c7_unwatched_key_publishes_nothing (emptyCache 1) 1 9 5 [1, 1] 2 (by decide)
    [4, 6] (by decide) (fun _ => ⟨0, []⟩) [⟨2, 3, 4, 10, 10⟩] [⟨2, [], []⟩]
    (by decide)

/-- C3 counterexample: with a configured watch key whose cached bytes are a
truncated page (empty data), the cypher-account provider's update path
panics — `get_zero_copy_account`'s bounds/discriminator checks abort — which
refutes "surfaces a typed decode error rather than crashing, skips that
update". -/
theorem c3_counterexample :
    capProcessUpdates [1, 1, 1, 1, 1, 1, 1, 1] 4 5
      { map := [(5, ⟨⟨[]⟩, 3⟩)], subscribers := 1, channel := [] } 1 5 = none := by
  rfl

/-- C3 amended: a decode assumption violation (short page or wrong
discriminator) makes `get_zero_copy_account` panic, and the provider's
update handler panics with it — no typed decode error is produced and the
update is not skipped. -/
theorem c3_layout_violation_panics
    (disc : List Nat) (size : Nat) (data : List Nat)
    (hbad : ¬ (8 ≤ data.length ∧ data.take 8 = disc ∧ size + 8 ≤ data.length))
    (cache : AccountsCache) (subs : Nat) (key : Pubkey) (slot : Nat)
    (hc : cache.get key = some ⟨⟨data⟩, slot⟩) :
    getZeroCopyAccount disc size data = none ∧
    capProcessUpdates disc size key cache subs key = none := by
  have hz : getZeroCopyAccount disc size data = none := by
    unfold getZeroCopyAccount
    simp [hbad]
  refine ⟨hz, ?_⟩
  unfold capProcessUpdates
  simp [hc, hz]

/-- C3 amended witness at concrete truncated bytes. -/
theorem c3_layout_violation_panics_witness :
    getZeroCopyAccount [1, 1, 1, 1, 1, 1, 1, 1] 4 [] = none ∧
    capProcessUpdates [1, 1, 1, 1, 1, 1, 1, 1] 4 7
      { map := [(7, ⟨⟨[]⟩, 3⟩)], subscribers := 1, channel := [] } 1 7 = none :=
  c3_layout_violation_panics [1, 1, 1, 1, 1, 1, 1, 1] 4 [] (by decide)
    { map := [(7, ⟨⟨[]⟩, 3⟩)], subscribers := 1, channel := [] } 1 7 3 (by decide)

/-- C1 (code behavior): the constructor `OrderBookProvider::new` leaves the `books` vector
empty and nothing ever populates it, so the per-market lookup in
`process_updates` always fails and the provider publishes nothing for any
notification — including one for a configured bids or asks address —
contradicting the claimed lazy creation and republication. -/
theorem c1_orderbook_provider_never_publishes
    (parse : List Nat → Slab) (cache : AccountsCache) (subs : Nat)
    (key : Pubkey) (ctxs : List OrderBookContext) :
    obpProcessUpdates parse cache subs key ctxs [] =
      some ([], [], Except.ok ()) := by
  unfold obpProcessUpdates
  induction ctxs with
  | nil => rfl
  | cons ctx rest ih =>
    unfold obpProcessUpdatesAux
    simpa [List.find?] using ih

theorem zip_self_map (f : Pubkey → Option Account) :
    ∀ ks : List Pubkey, ks.zip (ks.map f) = ks.map (fun k => (k, f k))
  | [] => rfl
  | k :: rest => by simp [zip_self_map f rest]

theorem processInfosRev_get_notin (slot : Nat) :
    ∀ (l : List (Pubkey × Option Account)) (c : AccountsCache) (k : Pubkey),
      k ∉ l.map Prod.fst → (processInfosRev slot l c).get k = c.get k := by
  intro l
  induction l with
  | nil => intro c k _; rfl
  | cons p rest ih =>
    intro c k hk
    have hk1 : k ≠ p.1 := by
      intro hc
      exact hk (by rw [hc]; exact List.mem_map_of_mem Prod.fst (List.mem_cons_self p rest))
    have hk2 : k ∉ rest.map Prod.fst := by
      intro hc
      exact hk (List.mem_cons_of_mem _ hc)
    obtain ⟨k0, oa⟩ := p
    cases oa with
    | none => exact ih c k hk2
    | some a =>
      show (processInfosRev slot rest ((c.insert k0 ⟨a, slot⟩).1)).get k = c.get k
      rw [ih _ k hk2]
      exact AccountsCache.get_insert_ne c k0 k ⟨a, slot⟩ hk1

theorem processInfosRev_get_mem (slot : Nat) :
    ∀ (l : List (Pubkey × Option Account)) (c : AccountsCache) (k : Pubkey)
      (oa : Option Account),
      (l.map Prod.fst).Nodup → (k, oa) ∈ l →
      (processInfosRev slot l c).get k =
        match oa with
        | some a => some ⟨a, slot⟩
        | none => c.get k := by
  intro l
  induction l with
  | nil => intro c k oa _ hm; cases hm
  | cons p rest ih =>
    intro c k oa hnd hm
    have hndr : (rest.map Prod.fst).Nodup := (List.nodup_cons.mp hnd).2
    have hhead : p.1 ∉ rest.map Prod.fst := (List.nodup_cons.mp hnd).1
    rcases List.mem_cons.mp hm with heq | hmr
    · obtain ⟨k0, ob⟩ := p
      obtain ⟨hk0, hob⟩ := Prod.mk.injEq .. ▸ heq
      subst hk0
      subst hob
      have hknotr : k ∉ rest.map Prod.fst := hhead
      cases oa with
      | none =>
        show (processInfosRev slot rest c).get k = c.get k
        exact processInfosRev_get_notin slot rest c k hknotr
      | some a =>
        show (processInfosRev slot rest ((c.insert k ⟨a, slot⟩).1)).get k = some ⟨a, slot⟩
        rw [processInfosRev_get_notin slot rest _ k hknotr]
        exact AccountsCache.get_insert_self c k ⟨a, slot⟩
    · have hkinr : k ∈ rest.map Prod.fst := by
        have : (k, oa).1 ∈ rest.map Prod.fst := List.mem_map_of_mem Prod.fst hmr
        simpa using this
      have hk1 : k ≠ p.1 := fun hc => hhead (hc ▸ hkinr)
      obtain ⟨k0, ob⟩ := p
      cases ob with
      | none => exact ih c k oa hndr hmr
      | some a =>
        show (processInfosRev slot rest ((c.insert k0 ⟨a, slot⟩).1)).get k = _
        rw [ih _ k oa hndr hmr]
        cases oa with
        | none => exact AccountsCache.get_insert_ne c k0 k ⟨a, slot⟩ hk1
        | some b => rfl

theorem fetchAndStore_oracle_get (remote : Pubkey → Option Account)
    (slotF : List Pubkey → Nat) (ks : List Pubkey) (c : AccountsCache)
    (hnd : ks.Nodup) :
    fetchAndStore (oracleFetch remote slotF) ks c =
      Except.ok (processInfosRev (slotF ks) ((ks.zip (ks.map remote)).reverse) c) ∧
    (∀ k, k ∉ ks →
      (processInfosRev (slotF ks) ((ks.zip (ks.map remote)).reverse) c).get k =
        c.get k) ∧
    (∀ k ∈ ks,
      (processInfosRev (slotF ks) ((ks.zip (ks.map remote)).reverse) c).get k =
        match remote k with
        | some a => some ⟨a, slotF ks⟩
        | none => c.get k) := by
  have hz : ks.zip (ks.map remote) = ks.map (fun k => (k, remote k)) :=
    zip_self_map remote ks
  have hfst : ((ks.zip (ks.map remote)).reverse).map Prod.fst = ks.reverse := by
    rw [hz, List.map_reverse, List.map_map]
    have : (Prod.fst ∘ fun k : Pubkey => (k, remote k)) = id := rfl
    rw [this, List.map_id]
  refine ⟨rfl, ?_, ?_⟩
  · intro k hk
    apply processInfosRev_get_notin
    rw [hfst, List.mem_reverse]
    exact hk
  · intro k hk
    apply processInfosRev_get_mem
    · rw [hfst]
      exact List.nodup_reverse.mpr hnd
    · rw [hz, List.mem_reverse]
      exact List.mem_map_of_mem (fun k => (k, remote k)) hk

theorem take_min_length_100 (l : List Pubkey) :
    l.take (min l.length 100) = l.take 100 := by
  rcases Nat.le_total l.length 100 with h | h
  · rw [Nat.min_eq_left h, List.take_length, List.take_of_length_le h]
  · rw [Nat.min_eq_right h]

theorem chunkSlices_cons (keys : List Pubkey) (h : 0 < keys.length) :
    chunkSlices keys = keys.take 100 :: chunkSlices (keys.drop 100) := by
  unfold chunkSlices batchStarts
  have hlen : (keys.drop 100).length = keys.length - 100 := List.length_drop 100 keys
  have hceil : (keys.length + 99) / 100 = ((keys.length - 100) + 99) / 100 + 1 := by
    omega
  rw [hceil, List.range_succ_eq_map]
  simp only [List.map_cons, List.map_map, hlen]
  congr 1
  · simp only [Function.comp, Nat.zero_mul, List.drop_zero, Nat.zero_add, Nat.sub_zero]
    exact take_min_length_100 keys
  · apply List.map_congr_left
    intro j _
    simp only [Function.comp]
    have hd : keys.drop (j.succ * 100) = (keys.drop 100).drop (j * 100) := by
      rw [List.drop_drop]
      congr 1
      omega
    rw [hd]
    congr 1
    omega

theorem chunkSlices_flatten (keys : List Pubkey) :
    (chunkSlices keys).flatten = keys := by
  generalize hn : keys.length = n
  revert keys
  induction n using Nat.strong_induction_on with
  | _ n ih =>
    intro keys hn
    by_cases h0 : keys.length = 0
    · have hkeys : keys = [] := List.length_eq_zero.mp h0
      subst hkeys
      rfl
    · have hpos : 0 < keys.length := Nat.pos_of_ne_zero h0
      rw [chunkSlices_cons keys hpos]
      have hrec : (chunkSlices (keys.drop 100)).flatten = keys.drop 100 := by
        apply ih (keys.drop 100).length _ (keys.drop 100) rfl
        rw [List.length_drop]
        omega
      simp only [List.flatten_cons, hrec]
      exact List.take_append_drop 100 keys

theorem chunkSlices_length (keys : List Pubkey) :
    (chunkSlices keys).length = (keys.length + 99) / 100 := by
  unfold chunkSlices batchStarts
  rw [List.length_map, List.length_map, List.length_range]

theorem hydrate_eq_chunkFold (fetch : List Pubkey → Except Unit RpcResponse)
    (keys : List Pubkey) (c : AccountsCache) :
    startServiceHydrate fetch keys c =
      (chunkSlices keys).foldlM (fun acc ks => fetchAndStore fetch ks acc) c := by
  unfold startServiceHydrate chunkSlices updateInfos
  rw [List.foldlM_map]

theorem replay_eq_chunkFold (fetch : List Pubkey → Except Unit RpcResponse)
    (keys : List Pubkey) (c : AccountsCache) :
    replayCycle fetch keys c =
      (chunkSlices keys).foldl
        (fun acc ks =>
          match fetchAndStore fetch ks acc with
          | Except.ok x => x
          | Except.error _ => acc) c := by
  unfold replayCycle chunkSlices updateInfos
  rw [List.foldl_map]

theorem fetchChunks_spec (remote : Pubkey → Option Account)
    (slotF : List Pubkey → Nat) :
    ∀ (chs : List (List Pubkey)) (c : AccountsCache), (chs.flatten).Nodup →
      ∃ c', chs.foldlM
              (fun acc ks => fetchAndStore (oracleFetch remote slotF) ks acc) c =
              Except.ok c' ∧
        (∀ k, k ∉ chs.flatten → c'.get k = c.get k) ∧
        (∀ ch ∈ chs, ∀ k ∈ ch,
          c'.get k =
            match remote k with
            | some a => some ⟨a, slotF ch⟩
            | none => c.get k) := by
  intro chs
  induction chs with
  | nil =>
    intro c _
    exact ⟨c, rfl, fun k _ => rfl, fun ch hch => absurd hch (List.not_mem_nil ch)⟩
  | cons ch rest ih =>
    intro c hnd
    rw [List.flatten_cons] at hnd
    rw [List.nodup_append] at hnd
    obtain ⟨hch_nd, hrest_nd, hdisj⟩ := hnd
    obtain ⟨hfs_eq, hnotin, hin⟩ := fetchAndStore_oracle_get remote slotF ch c hch_nd
    obtain ⟨c', hfold, hnotin', hin'⟩ :=
      ih (processInfosRev (slotF ch) ((ch.zip (ch.map remote)).reverse) c) hrest_nd
    refine ⟨c', ?_, ?_, ?_⟩
    · rw [List.foldlM_cons, hfs_eq]
      exact hfold
    · intro k hk
      rw [List.flatten_cons, List.mem_append] at hk
      push_neg at hk
      rw [hnotin' k hk.2]
      exact hnotin k hk.1
    · intro ch' hch' k hk
      rcases List.mem_cons.mp hch' with heq | hmr
      · subst heq
        have hknr : k ∉ rest.flatten := hdisj hk
        rw [hnotin' k hknr]
        exact hin k hk
      · have hkr : k ∈ rest.flatten := by
          rw [List.mem_flatten]
          exact ⟨ch', hmr, hk⟩
        have hknc : k ∉ ch := fun hc => hdisj hc hkr
        rw [hin' ch' hmr k hk]
        cases hr : remote k with
        | none => exact hnotin k hknc
        | some a => rfl

theorem fetchAndStore_flaky (fail : List Pubkey → Bool)
    (remote : Pubkey → Option Account) (slotF : List Pubkey → Nat)
    (ks : List Pubkey) (c : AccountsCache) :
    fetchAndStore (flakyFetch fail remote slotF) ks c =
      if fail ks then Except.error ()
      else Except.ok
        (processInfosRev (slotF ks) ((ks.zip (ks.map remote)).reverse) c) := by
  unfold fetchAndStore flakyFetch
  by_cases h : fail ks <;> simp [h]

theorem replayChunks_spec (fail : List Pubkey → Bool)
    (remote : Pubkey → Option Account) (slotF : List Pubkey → Nat) :
    ∀ (chs : List (List Pubkey)) (c : AccountsCache), (chs.flatten).Nodup →
      (∀ k, k ∉ chs.flatten →
        (chs.foldl
          (fun acc ks =>
            match fetchAndStore (flakyFetch fail remote slotF) ks acc with
            | Except.ok x => x
            | Except.error _ => acc) c).get k = c.get k) ∧
      (∀ ch ∈ chs, ∀ k ∈ ch,
        (chs.foldl
          (fun acc ks =>
            match fetchAndStore (flakyFetch fail remote slotF) ks acc with
            | Except.ok x => x
            | Except.error _ => acc) c).get k =
          if fail ch then c.get k
          else
            match remote k with
            | some a => some ⟨a, slotF ch⟩
            | none => c.get k) := by
  intro chs
  induction chs with
  | nil =>
    intro c _
    exact ⟨fun k _ => rfl, fun ch hch => absurd hch (List.not_mem_nil ch)⟩
  | cons ch rest ih =>
    intro c hnd
    rw [List.flatten_cons, List.nodup_append] at hnd
    obtain ⟨hch_nd, hrest_nd, hdisj⟩ := hnd
    obtain ⟨_, hnotin, hin⟩ := fetchAndStore_oracle_get remote slotF ch c hch_nd
    have hstep :
        (match fetchAndStore (flakyFetch fail remote slotF) ch c with
          | Except.ok x => x
          | Except.error _ => c) =
          if fail ch then c
          else processInfosRev (slotF ch) ((ch.zip (ch.map remote)).reverse) c := by
      rw [fetchAndStore_flaky]
      by_cases h : fail ch <;> simp [h]
    by_cases hf : fail ch
    · rw [hf] at hstep
      simp only [if_true] at hstep
      obtain ⟨ihnotin, ihin⟩ := ih c hrest_nd
      constructor
      · intro k hk
        rw [List.flatten_cons, List.mem_append] at hk
        push_neg at hk
        rw [List.foldl_cons, hstep]
        exact ihnotin k hk.2
      · intro ch' hch' k hk
        rw [List.foldl_cons, hstep]
        rcases List.mem_cons.mp hch' with heq | hmr
        · subst heq
          have hknr : k ∉ rest.flatten := hdisj hk
          rw [ihnotin k hknr, hf]
          simp
        · exact ihin ch' hmr k hk
    · rw [if_neg hf] at hstep
      obtain ⟨ihnotin, ihin⟩ :=
        ih (processInfosRev (slotF ch) ((ch.zip (ch.map remote)).reverse) c) hrest_nd
      constructor
      · intro k hk
        rw [List.flatten_cons, List.mem_append] at hk
        push_neg at hk
        rw [List.foldl_cons, hstep, ihnotin k hk.2]
        exact hnotin k hk.1
      · intro ch' hch' k hk
        rw [List.foldl_cons, hstep]
        rcases List.mem_cons.mp hch' with heq | hmr
        · subst heq
          have hknr : k ∉ rest.flatten := hdisj hk
          rw [ihnotin k hknr, if_neg hf]
          exact hin k hk
        · have hkr : k ∈ rest.flatten := by
            rw [List.mem_flatten]
            exact ⟨ch', hmr, hk⟩
          have hknc : k ∉ ch := fun hc => hdisj hc hkr
          rw [ihin ch' hmr k hk]
          by_cases hf' : fail ch'
          · rw [if_pos hf', if_pos hf']
            exact hnotin k hknc
          · rw [if_neg hf', if_neg hf']
            cases hr : remote k with
            | none => exact hnotin k hknc
            | some a => rfl

/-- C6: the hydration pass partitions the N-key watch-list into ceil(N/100)
contiguous batches fetched sequentially, and afterwards the cache holds
exactly the addresses for which the RPC response returned an account —
paired with that response's context slot — while addresses with no remote
account, or outside the watch-list, are absent. -/
theorem c6_hydration_partitions_and_inserts
    (keys : List Pubkey) (remote : Pubkey → Option Account)
    (slotF : List Pubkey → Nat) (s : Nat) (hnd : keys.Nodup) :
    (chunkSlices keys).length = (keys.length + 99) / 100 ∧
    (chunkSlices keys).flatten = keys ∧
    ∃ c', startServiceHydrate (oracleFetch remote slotF) keys (emptyCache s) =
            Except.ok c' ∧
      (∀ k, k ∉ keys → c'.get k = none) ∧
      (∀ ch ∈ chunkSlices keys, ∀ k ∈ ch,
        c'.get k =
          match remote k with
          | some a => some ⟨a, slotF ch⟩
          | none => none) := by
  have hflat := chunkSlices_flatten keys
  refine ⟨chunkSlices_length keys, hflat, ?_⟩
  have hnd' : ((chunkSlices keys).flatten).Nodup := by
    rw [hflat]
    exact hnd
  obtain ⟨c', hfold, hnotin, hin⟩ :=
    fetchChunks_spec remote slotF (chunkSlices keys) (emptyCache s) hnd'
  refine ⟨c', ?_, ?_, ?_⟩
  · rw [hydrate_eq_chunkFold]
    exact hfold
  · intro k hk
    rw [hnotin k (by rw [hflat]; exact hk)]
    rfl
  · intro ch hch k hk
    rw [hin ch hch k hk]
    cases remote k <;> rfl

/-- C6 witness: hydrate watch-list `[1, 2]` where key 1 has no remote account
and key 2 returns bytes `[9]` at slot 10 (end-to-end scenario 1). -/
theorem c6_hydration_partitions_and_inserts_witness :
    (chunkSlices [1, 2]).length = (([1, 2] : List Pubkey).length + 99) / 100 ∧
    (chunkSlices [1, 2]).flatten = [1, 2] ∧
    ∃ c', startServiceHydrate
            (oracleFetch (fun k => if k = 2 then some ⟨[9]⟩ else none)
              (fun _ => 10)) [1, 2] (emptyCache 0) = Except.ok c' ∧
      (∀ k, k ∉ ([1, 2] : List Pubkey) → c'.get k = none) ∧
      (∀ ch ∈ chunkSlices [1, 2], ∀ k ∈ ch,
        c'.get k =
          match (if k = 2 then some (Account.mk [9]) else none) with
          | some a => some ⟨a, 10⟩
          | none => none) :=
  c6_hydration_partitions_and_inserts [1, 2]
    (fun k => if k = 2 then some ⟨[9]⟩ else none) (fun _ => 10) 0 (by decide)

/-- C2 counterexample: during the initial full hydration pass the batch
result is `.unwrap()`ed (`account_info_service.rs` line 52), so a failing
RPC batch panics the task (the error propagates) instead of being absorbed
— refuting the claim for the hydration pass. -/
theorem c2_counterexample :
    startServiceHydrate (fun _ => Except.error ()) [0] (emptyCache 0) =
      Except.error () := rfl

/-- C2 corrected: in the periodic replay loop a batch failure is absorbed —
the cycle completes, the failed batch's keys keep their previously cached
state, batches whose fetch succeeds still take effect with their response's
context slot, and the next cycle attempts the same batches again; the
initial hydration pass, by contrast, panics on a failed batch. -/
theorem c2_replay_absorbs_batch_failures
    (keys : List Pubkey) (remote : Pubkey → Option Account)
    (slotF : List Pubkey → Nat) (fail : List Pubkey → Bool)
    (c : AccountsCache) (hnd : keys.Nodup) :
    (∀ ch ∈ chunkSlices keys, ∀ k ∈ ch,
      (replayCycle (flakyFetch fail remote slotF) keys c).get k =
        if fail ch then c.get k
        else
          match remote k with
          | some a => some ⟨a, slotF ch⟩
          | none => c.get k) ∧
    (∀ n, replayCycles (flakyFetch fail remote slotF) keys (n + 1) c =
      replayCycle (flakyFetch fail remote slotF) keys
        (replayCycles (flakyFetch fail remote slotF) keys n c)) := by
  constructor
  · intro ch hch k hk
    rw [replay_eq_chunkFold]
    have hnd' : ((chunkSlices keys).flatten).Nodup := by
      rw [chunkSlices_flatten]
      exact hnd
    exact (replayChunks_spec fail remote slotF (chunkSlices keys) c hnd').2 ch hch k hk
  · intro n
    rfl

/-- C2 witness: a replay cycle over `[1, 2]` with every batch failing leaves
each key's cached state untouched. -/
theorem c2_replay_absorbs_batch_failures_witness :
    (∀ ch ∈ chunkSlices [1, 2], ∀ k ∈ ch,
      (replayCycle (flakyFetch (fun _ => true) (fun _ => none) (fun _ => 0))
        [1, 2] (emptyCache 0)).get k =
        if (fun (_ : List Pubkey) => true) ch then (emptyCache 0).get k
        else
          match (none : Option Account) with
          | some a => some ⟨a, 0⟩
          | none => (emptyCache 0).get k) ∧
    (∀ n, replayCycles (flakyFetch (fun _ => true) (fun _ => none) (fun _ => 0))
        [1, 2] (n + 1) (emptyCache 0) =
      replayCycle (flakyFetch (fun _ => true) (fun _ => none) (fun _ => 0)) [1, 2]
        (replayCycles (flakyFetch (fun _ => true) (fun _ => none) (fun _ => 0))
          [1, 2] n (emptyCache 0))) :=
  c2_replay_absorbs_batch_failures [1, 2] (fun _ => none) (fun _ => 0)
    (fun _ => true) (emptyCache 0) (by decide)

/-- C10: in every reachable state of the composed cache-plus-providers
system, a key pending on the notification channel is present in the cache
map — an insert stores the record before the notification is published and
nothing is ever removed — so the `cache.get(&key).unwrap()` performed by
each provider's update handler for a notified, watched key cannot panic. -/
theorem c10_notified_key_always_cached (c : AccountsCache)
    (h : CacheReachable c) (k : Pubkey) (hk : k ∈ c.channel) :
    (c.get k).isSome = true :=
  cacheReachable_channel_cached c h k hk

/-- C10 witness: subscribe then insert key 1; the notified key reads back. -/
theorem c10_notified_key_always_cached_witness :
    ((((emptyCache 1).insert 1 ⟨⟨[2]⟩, 3⟩).1).get 1).isSome = true := by
  apply c10_notified_key_always_cached ((emptyCache 1).insert 1 ⟨⟨[2]⟩, 3⟩).1
  · exact Relation.ReflTransGen.tail
      (Relation.ReflTransGen.single (CacheStep.subscribe (emptyCache 0)))
      (CacheStep.insert (emptyCache 1) 1 ⟨⟨[2]⟩, 3⟩)
  · decide

end CypherInteractive



